import Mathlib

/-!
Shallow embedding of the Wiener attack implementation (src/Wienerattack.py)
together with a verification of its specification.

Python arbitrary-precision integers are modelled by `Int`.  Python floor
division `//` is `Int.fdiv` and the Python modulus `%` is `Int.fmod`
(both round towards negative infinity, exactly as in Python).
`math.isqrt` on a non-negative integer is `Nat.sqrt` on `Int.toNat`.
The interactive print statements of the source are presentation only and
carry no data flow, so the embedding drops them.
-/

/-- Embedding of `continued_fraction_expansion(numerator, denominator)`:
    repeatedly take the floor quotient `a = numerator // denominator`,
    append it, and continue with `(denominator, numerator - a * denominator)`
    until the denominator becomes zero. -/
def continued_fraction_expansion (numerator denominator : Int) : List Int :=
  if h : denominator = 0 then []
  else
    numerator.fdiv denominator ::
      continued_fraction_expansion denominator
        (numerator - numerator.fdiv denominator * denominator)
  termination_by denominator.natAbs
  decreasing_by
    have hm : numerator - numerator.fdiv denominator * denominator
        = numerator.fmod denominator := by
      rw [Int.fmod_def]; ring
    rw [hm]
    rcases Int.lt_or_lt_of_ne h with hneg | hpos
    · have hbound : denominator < numerator.fmod denominator ∧
          numerator.fmod denominator ≤ 0 := by
        rcases denominator with bn | bn
        · exfalso; rw [Int.ofNat_eq_coe] at hneg; omega
        · rcases numerator with m | m
          · rcases m with _ | m1
            · have h1 : Int.fmod (Int.ofNat 0) (Int.negSucc bn) = 0 := rfl
              rw [h1, Int.negSucc_eq]; omega
            · have h1 : Int.fmod (Int.ofNat (m1 + 1)) (Int.negSucc bn)
                  = Int.subNatNat (m1 % (bn + 1)) bn := rfl
              rw [h1, Int.subNatNat_eq_coe, Int.negSucc_eq]
              have h2 : m1 % (bn + 1) < bn + 1 := Nat.mod_lt _ (by omega)
              omega
          · have h1 : Int.fmod (Int.negSucc m) (Int.negSucc bn)
                = -Int.ofNat ((m + 1) % (bn + 1)) := rfl
            rw [h1, Int.negSucc_eq, Int.ofNat_eq_coe]
            have h2 : (m + 1) % (bn + 1) < bn + 1 := Nat.mod_lt _ (by omega)
            omega
      omega
    · have h1 := Int.fmod_nonneg' numerator hpos
      have h2 := Int.fmod_lt_of_pos numerator hpos
      omega

/-- One step of the loop body of `convergents_from_cf`: given the list built
    so far and the current index `i`, append the next convergent pair exactly
    as the Python loop does (Python list indexing `cf[i]`, `convergents[i-1]`,
    `convergents[i-2]` is embedded as `List.getD`; every access made by the
    source is in range, so the default is never consulted). -/
def convStep (cf : List Int) (convergents : List (Int × Int)) (i : Nat) :
    List (Int × Int) :=
  if i = 0 then
    convergents ++ [(cf.getD 0 0, 1)]
  else if i = 1 then
    convergents ++ [(cf.getD 0 0 * cf.getD 1 0 + 1, cf.getD 1 0)]
  else
    convergents ++
      [(cf.getD i 0 * (convergents.getD (i - 1) (0, 0)).1 +
          (convergents.getD (i - 2) (0, 0)).1,
        cf.getD i 0 * (convergents.getD (i - 1) (0, 0)).2 +
          (convergents.getD (i - 2) (0, 0)).2)]

/-- Embedding of `convergents_from_cf(cf)`: the Python `for i in range(len(cf))`
    loop that grows the convergent list. -/
def convergents_from_cf (cf : List Int) : List (Int × Int) :=
  (List.range cf.length).foldl (convStep cf) []

/-- Embedding of `is_perfect_square(n)`: negative inputs give `None`,
    otherwise compute `root = math.isqrt(n)` and return it when it squares
    back to `n` exactly. -/
def is_perfect_square (m : Int) : Option Int :=
  if m < 0 then none
  else
    let root : Int := Int.ofNat (Nat.sqrt m.toNat)
    if root * root = m then some root else none

/-- Embedding of the candidate loop of `wiener_attack` (step 3 of the source):
    scan the convergent pairs `(k, d_candidate)` in order, `continue` on a
    failed guard, return the first `d_candidate` whose derived quadratic roots
    multiply back to `n`. -/
def wiener_loop (e n : Int) : List (Int × Int) → Option Int
  | [] => none
  | (k, d_candidate) :: rest =>
    if k = 0 then wiener_loop e n rest
    else if (e * d_candidate - 1).fmod k ≠ 0 then wiener_loop e n rest
    else
      let phi_candidate := (e * d_candidate - 1).fdiv k
      let b := -(n - phi_candidate + 1)
      let discriminant := b * b - 4 * 1 * n
      match is_perfect_square discriminant with
      | none => wiener_loop e n rest
      | some sqrt_discriminant =>
        if (-b + sqrt_discriminant).fdiv 2 * ((-b - sqrt_discriminant).fdiv 2) = n
        then some d_candidate
        else wiener_loop e n rest

/-- Embedding of `wiener_attack(e, n)`: expand `e/n`, compute the convergents
    and run the candidate loop. -/
def wiener_attack (e n : Int) : Option Int :=
  wiener_loop e n (convergents_from_cf (continued_fraction_expansion e n))

/-- The acceptance test applied by the candidate loop to a single convergent
    pair, as a boolean: `k` nonzero, `(e * d - 1)` exactly divisible by `k`,
    the discriminant a non-negative perfect square with root `s`, and the two
    quadratic roots multiplying back to `n`. -/
def accepts (e n : Int) (kd : Int × Int) : Bool :=
  if kd.1 = 0 then false
  else if (e * kd.2 - 1).fmod kd.1 ≠ 0 then false
  else
    let phi_candidate := (e * kd.2 - 1).fdiv kd.1
    let b := -(n - phi_candidate + 1)
    let discriminant := b * b - 4 * 1 * n
    match is_perfect_square discriminant with
    | none => false
    | some sqrt_discriminant =>
      decide ((-b + sqrt_discriminant).fdiv 2 * ((-b - sqrt_discriminant).fdiv 2) = n)

/-- The Euclidean quotient sequence on natural numbers, written from the
    specification of the expander: each step appends `numerator / denominator`
    and continues with `(denominator, numerator mod denominator)`, stopping
    when the denominator reaches zero.  Used to state that the expander
    computes exactly the Euclidean algorithm on non-negative inputs. -/
def euclid_quotients (a b : Nat) : List Nat :=
  if h : b = 0 then []
  else a / b :: euclid_quotients b (a % b)
  termination_by b
  decreasing_by exact Nat.mod_lt _ (Nat.pos_of_ne_zero h)

/-- Numerators of the continued-fraction convergents, shifted by two so that
    the standard seeds `p₋₂ = 0`, `p₋₁ = 1` are indices `0` and `1`:
    `pnum cf (i+2)` is the numerator `hᵢ` of the `i`-th convergent. -/
def pnum (cf : List Int) : Nat → Int
  | 0 => 0
  | 1 => 1
  | j + 2 => cf.getD j 0 * pnum cf (j + 1) + pnum cf j

/-- Denominators of the continued-fraction convergents, shifted by two:
    `qden cf (i+2)` is the denominator `kᵢ` of the `i`-th convergent. -/
def qden (cf : List Int) : Nat → Int
  | 0 => 1
  | 1 => 0
  | j + 2 => cf.getD j 0 * qden cf (j + 1) + qden cf j

/-- The chain of Euclidean remainders: `eRem a b 0 = b` and each further index
    follows one Euclid step, staying at `0` once the algorithm has stopped. -/
def eRem (a b : Nat) : Nat → Nat
  | 0 => b
  | j + 1 => if b = 0 then 0 else eRem b (a % b) j

/-! ### Basic unfolding lemmas -/

theorem pnum_zero (cf : List Int) : pnum cf 0 = 0 := rfl

theorem pnum_one (cf : List Int) : pnum cf 1 = 1 := rfl

theorem pnum_add_two (cf : List Int) (j : Nat) :
    pnum cf (j + 2) = cf.getD j 0 * pnum cf (j + 1) + pnum cf j := by
  rw [pnum]

theorem qden_zero (cf : List Int) : qden cf 0 = 1 := rfl

theorem qden_one (cf : List Int) : qden cf 1 = 0 := rfl

theorem qden_add_two (cf : List Int) (j : Nat) :
    qden cf (j + 2) = cf.getD j 0 * qden cf (j + 1) + qden cf j := by
  rw [qden]

theorem cfe_zero (numerator : Int) : continued_fraction_expansion numerator 0 = [] := by
  rw [continued_fraction_expansion]
  simp

theorem cfe_cons (numerator : Int) {denominator : Int} (h : denominator ≠ 0) :
    continued_fraction_expansion numerator denominator =
      numerator.fdiv denominator ::
        continued_fraction_expansion denominator
          (numerator - numerator.fdiv denominator * denominator) := by
  rw [continued_fraction_expansion]
  simp [h]

theorem cfe_eval_step (numerator denominator q r : Int) (h : denominator ≠ 0)
    (hq : numerator.fdiv denominator = q) (hr : numerator - q * denominator = r) :
    continued_fraction_expansion numerator denominator =
      q :: continued_fraction_expansion denominator r := by
  rw [cfe_cons numerator h, hq, hr]

theorem euclid_quotients_zero (a : Nat) : euclid_quotients a 0 = [] := by
  rw [euclid_quotients]
  simp

theorem euclid_quotients_cons (a : Nat) {b : Nat} (h : b ≠ 0) :
    euclid_quotients a b = a / b :: euclid_quotients b (a % b) := by
  rw [euclid_quotients]
  simp [h]

theorem eRem_zero (a b : Nat) : eRem a b 0 = b := rfl

theorem eRem_succ (a b : Nat) (j : Nat) :
    eRem a b (j + 1) = if b = 0 then 0 else eRem b (a % b) j := rfl

/-! ### The expander agrees with the Euclidean algorithm on `Nat` inputs -/

theorem cfe_eq_euclid (a b : Nat) :
    continued_fraction_expansion (a : Int) (b : Int) =
      (euclid_quotients a b).map (Nat.cast : Nat → Int) := by
  induction b using Nat.strong_induction_on generalizing a with
  | _ b ih =>
    by_cases hb : b = 0
    · subst hb
      simp [cfe_zero, euclid_quotients_zero]
    · have hbz : (b : Int) ≠ 0 := by exact_mod_cast hb
      rw [cfe_cons _ hbz, euclid_quotients_cons _ hb, List.map_cons]
      have hdiv : (a : Int).fdiv (b : Int) = ((a / b : Nat) : Int) := by
        rw [Int.fdiv_eq_ediv _ (by positivity)]
        exact (Int.ofNat_ediv a b).symm
      have hmod : (a : Int) - ((a / b : Nat) : Int) * (b : Int) = ((a % b : Nat) : Int) := by
        have hdm := Nat.div_add_mod a b
        have hdm2 : (b : Int) * ((a / b : Nat) : Int) + ((a % b : Nat) : Int) = (a : Int) := by
          exact_mod_cast hdm
        linear_combination -hdm2
      rw [hdiv, hmod]
      exact congrArg _ (ih (a % b) (Nat.mod_lt _ (Nat.pos_of_ne_zero hb)) b)

/-! ### Characterization of the convergent list -/

theorem convergents_foldl (cf : List Int) (m : Nat) :
    (List.range m).foldl (convStep cf) [] =
      (List.range m).map (fun i => (pnum cf (i + 2), qden cf (i + 2))) := by
  induction m with
  | zero => rfl
  | succ m ih =>
    rw [List.range_succ, List.foldl_append, List.map_append, ih]
    have hget : ∀ i : Nat, i < m →
        ((List.range m).map (fun i => (pnum cf (i + 2), qden cf (i + 2)))).getD i (0, 0)
          = (pnum cf (i + 2), qden cf (i + 2)) := by
      intro i hi
      rw [List.getD_eq_getElem?_getD]
      simp [List.getElem?_map, List.getElem?_range, hi]
    show convStep cf _ m = _
    match m with
    | 0 =>
      simp [convStep, pnum_add_two, qden_add_two, pnum_one, pnum_zero, qden_one, qden_zero]
    | 1 =>
      simp [convStep, pnum_add_two, qden_add_two, pnum_one, pnum_zero, qden_one, qden_zero,
        List.range_succ]
      ring
    | (j + 2) =>
      rw [convStep, if_neg (by omega), if_neg (by omega)]
      have h1 : j + 2 - 1 = j + 1 := by omega
      have h2 : j + 2 - 2 = j := by omega
      rw [h1, h2, hget (j + 1) (by omega), hget j (by omega)]
      simp only [List.foldl_cons, List.foldl_nil, List.map_cons, List.map_nil]
      rw [pnum_add_two cf (j + 2), qden_add_two cf (j + 2)]

theorem convergents_from_cf_eq (cf : List Int) :
    convergents_from_cf cf =
      (List.range cf.length).map (fun i => (pnum cf (i + 2), qden cf (i + 2))) :=
  convergents_foldl cf cf.length

theorem convergents_length (cf : List Int) :
    (convergents_from_cf cf).length = cf.length := by
  rw [convergents_from_cf_eq]; simp

theorem convergents_getD (cf : List Int) (i : Nat) (hi : i < cf.length) :
    (convergents_from_cf cf).getD i (0, 0) = (pnum cf (i + 2), qden cf (i + 2)) := by
  rw [convergents_from_cf_eq, List.getD_eq_getElem?_getD]
  simp [List.getElem?_map, List.getElem?_range, hi]

theorem mem_convergents (cf : List Int) (kd : Int × Int)
    (h : kd ∈ convergents_from_cf cf) :
    ∃ i : Nat, i < cf.length ∧ kd = (pnum cf (i + 2), qden cf (i + 2)) := by
  rw [convergents_from_cf_eq] at h
  obtain ⟨i, hi, hkd⟩ := List.mem_map.mp h
  exact ⟨i, List.mem_range.mp hi, hkd.symm⟩

/-! ### Exactness of the perfect-square test -/

theorem ips_some_iff (m r : Int) :
    is_perfect_square m = some r ↔ 0 ≤ r ∧ r * r = m := by
  unfold is_perfect_square
  by_cases hm : m < 0
  · simp only [if_pos hm]
    constructor
    · intro h; exact absurd h (by simp)
    · rintro ⟨h0, hr⟩
      exact absurd hm (by nlinarith)
  · push_neg at hm
    simp only [if_neg (not_lt.mpr hm)]
    split
    next hroot =>
      have hnn : (0 : Int) ≤ Int.ofNat (Nat.sqrt m.toNat) := by
        rw [Int.ofNat_eq_coe]; positivity
      constructor
      · rintro h
        obtain rfl : Int.ofNat (Nat.sqrt m.toNat) = r := Option.some.inj h
        exact ⟨hnn, hroot⟩
      · rintro ⟨h0, hr⟩
        have h1 : r * r = Int.ofNat (Nat.sqrt m.toNat) * Int.ofNat (Nat.sqrt m.toNat) :=
          hr.trans hroot.symm
        have : r = Int.ofNat (Nat.sqrt m.toNat) := (mul_self_inj h0 hnn).mp h1
        simp [this]
    next hroot =>
      constructor
      · intro h; exact absurd h (by simp)
      · rintro ⟨h0, hr⟩
        exfalso
        apply hroot
        have hmn : ((r.toNat * r.toNat : Nat) : Int) = m := by
          rw [Nat.cast_mul, Int.toNat_of_nonneg h0, hr]
        have hmt : m.toNat = r.toNat * r.toNat := by rw [← hmn, Int.toNat_ofNat]
        rw [hmt, Nat.sqrt_eq, Int.ofNat_eq_coe, ← Nat.cast_mul, hmn]

theorem ips_none_neg {m : Int} (h : m < 0) : is_perfect_square m = none := by
  unfold is_perfect_square
  simp [h]

theorem ips_none_iff (m : Int) :
    is_perfect_square m = none ↔ ∀ r : Int, r * r ≠ m := by
  constructor
  · intro hn r hr
    rcases le_or_lt 0 r with h0 | h0
    · have hs : is_perfect_square m = some r := (ips_some_iff m r).mpr ⟨h0, hr⟩
      rw [hn] at hs
      exact Option.noConfusion hs
    · have hs : is_perfect_square m = some (-r) :=
        (ips_some_iff m (-r)).mpr ⟨by omega, by rw [neg_mul_neg, hr]⟩
      rw [hn] at hs
      exact Option.noConfusion hs
  · intro h
    rcases hi : is_perfect_square m with _ | r
    · rfl
    · obtain ⟨h0, hr⟩ := (ips_some_iff m r).mp hi
      exact absurd hr (h r)

/-! ### The candidate loop returns the first accepted convergent -/

theorem wiener_loop_cons (e n k d : Int) (rest : List (Int × Int)) :
    wiener_loop e n ((k, d) :: rest) =
      if accepts e n (k, d) then some d else wiener_loop e n rest := by
  rw [wiener_loop]
  simp only [accepts]
  by_cases hk : k = 0
  · simp [hk]
  · simp only [if_neg hk]
    by_cases hm : (e * d - 1).fmod k = 0
    · simp only [hm, ne_eq, not_true_eq_false, if_false]
      rcases hs : is_perfect_square
          (-(n - (e * d - 1).fdiv k + 1) * -(n - (e * d - 1).fdiv k + 1) - 4 * 1 * n)
          with _ | s
      · simp [hs]
      · simp only [hs]
        by_cases hx : (- -(n - (e * d - 1).fdiv k + 1) + s).fdiv 2 *
            ((- -(n - (e * d - 1).fdiv k + 1) - s).fdiv 2) = n
        · simp [hx]
        · simp [hx]
    · simp [hm]

theorem accepts_k_zero (e n d : Int) : accepts e n (0, d) = false := by
  simp [accepts]

theorem accepts_true_of (e n k d phi s : Int) (hk : ¬(k = 0))
    (hm : ¬((e * d - 1).fmod k ≠ 0)) (hphi : (e * d - 1).fdiv k = phi)
    (hips : is_perfect_square (-(n - phi + 1) * -(n - phi + 1) - 4 * 1 * n) = some s)
    (hx : (- -(n - phi + 1) + s).fdiv 2 * ((- -(n - phi + 1) - s).fdiv 2) = n) :
    accepts e n (k, d) = true := by
  simp only [accepts]
  rw [if_neg hk, if_neg hm, hphi, hips]
  exact decide_eq_true hx

theorem wiener_loop_eq_find (e n : Int) (l : List (Int × Int)) :
    wiener_loop e n l = (l.find? (accepts e n)).map Prod.snd := by
  induction l with
  | nil => rfl
  | cons kd rest ih =>
    obtain ⟨k, d⟩ := kd
    rw [wiener_loop_cons, List.find?_cons]
    by_cases h : accepts e n (k, d)
    · simp [h]
    · simp [h, ih]

/-! ### Convergent recurrences under consing a term in front -/

theorem pnum_qden_cons (x : Int) (L : List Int) (j : Nat) :
    pnum (x :: L) (j + 1) = x * pnum L j + qden L j ∧
      qden (x :: L) (j + 1) = pnum L j := by
  induction j using Nat.strong_induction_on with
  | _ j ih =>
    match j with
    | 0 =>
      constructor <;> simp [pnum_one, pnum_zero, qden_zero, qden_one]
    | 1 =>
      constructor
      · rw [pnum_add_two]
        simp [pnum_one, pnum_zero, qden_one, qden_zero]
      · rw [qden_add_two]
        simp [pnum_one, qden_one, qden_zero]
    | (j + 2) =>
      obtain ⟨ihp1, ihq1⟩ := ih (j + 1) (by omega)
      obtain ⟨ihp0, ihq0⟩ := ih j (by omega)
      constructor
      · rw [show j + 2 + 1 = (j + 1) + 2 by omega, pnum_add_two, ihp1, ihp0]
        rw [List.getD_cons_succ, pnum_add_two, qden_add_two]
        ring
      · rw [show j + 2 + 1 = (j + 1) + 2 by omega, qden_add_two, ihq1, ihq0]
        rw [List.getD_cons_succ, pnum_add_two]

/-! ### Nonnegativity of convergent entries -/

theorem getD_nonneg_of_forall_mem (cf : List Int) (hcf : ∀ x ∈ cf, 0 ≤ x) (j : Nat) :
    0 ≤ cf.getD j 0 := by
  rcases lt_or_le j cf.length with hj | hj
  · rw [List.getD_eq_getElem cf 0 hj]
    exact hcf _ (List.getElem_mem hj)
  · rw [List.getD_eq_default cf 0 hj]

theorem pnum_qden_nonneg (cf : List Int) (hcf : ∀ x ∈ cf, 0 ≤ x) (i : Nat) :
    0 ≤ pnum cf i ∧ 0 ≤ qden cf i := by
  induction i using Nat.strong_induction_on with
  | _ i ih =>
    match i with
    | 0 => constructor <;> simp [pnum_zero, qden_zero]
    | 1 => constructor <;> simp [pnum_one, qden_one]
    | (i + 2) =>
      obtain ⟨ihp1, ihq1⟩ := ih (i + 1) (by omega)
      obtain ⟨ihp0, ihq0⟩ := ih i (by omega)
      have hx := getD_nonneg_of_forall_mem cf hcf i
      constructor
      · rw [pnum_add_two]; positivity
      · rw [qden_add_two]; positivity

/-! ### The chain of Euclidean remainders -/

theorem eRem_one (a b : Nat) (hb : b ≠ 0) : eRem a b 1 = a % b := by
  rw [eRem_succ]
  simp [hb, eRem_zero]

theorem eRem_succ_le (a b j : Nat) : eRem a b (j + 1) ≤ eRem a b j := by
  induction j generalizing a b with
  | zero =>
    rw [eRem_succ, eRem_zero]
    by_cases hb : b = 0
    · simp [hb]
    · simp only [if_neg hb, eRem_zero]
      exact le_of_lt (Nat.mod_lt _ (Nat.pos_of_ne_zero hb))
  | succ j ih =>
    rw [eRem_succ a b (j + 1), eRem_succ a b j]
    by_cases hb : b = 0
    · simp [hb]
    · simp only [if_neg hb]
      exact ih b (a % b)

theorem eRem_le_of_le (a b : Nat) {j k : Nat} (h : j ≤ k) : eRem a b k ≤ eRem a b j := by
  induction k with
  | zero =>
    obtain rfl : j = 0 := Nat.le_zero.mp h
    exact le_refl _
  | succ k ih =>
    rcases Nat.lt_or_ge j (k + 1) with hk | hk
    · exact le_trans (eRem_succ_le a b k) (ih (by omega))
    · have : j = k + 1 := by omega
      subst this
      rfl

theorem eRem_succ_lt_or_zero (a b j : Nat) :
    eRem a b (j + 1) < eRem a b j ∨ eRem a b (j + 1) = 0 := by
  induction j generalizing a b with
  | zero =>
    by_cases hb : b = 0
    · right; rw [eRem_succ]; simp [hb]
    · left
      rw [eRem_succ, if_neg hb, eRem_zero, eRem_zero]
      exact Nat.mod_lt _ (Nat.pos_of_ne_zero hb)
  | succ j ih =>
    by_cases hb : b = 0
    · right; rw [eRem_succ]; simp [hb]
    · rw [eRem_succ a b (j + 1), eRem_succ a b j, if_neg hb, if_neg hb]
      exact ih b (a % b)

/-! ### Cast arithmetic helper for one Euclid step -/

theorem cast_euclid_step (a b : Nat) :
    (a : Int) - (b : Int) * ((a / b : Nat) : Int) = ((a % b : Nat) : Int) := by
  have hdm := Nat.div_add_mod a b
  have hdm2 : (b : Int) * ((a / b : Nat) : Int) + ((a % b : Nat) : Int) = (a : Int) := by
    exact_mod_cast hdm
  linear_combination -hdm2

/-! ### The classical identity `a·kᵢ − b·hᵢ = (−1)ⁱ rᵢ₊₁` for the convergents
    of the Euclidean expansion of `a / b` -/

theorem euclid_identity (b : Nat) :
    ∀ (a j : Nat), j < (euclid_quotients a b).length →
      (a : Int) * qden ((euclid_quotients a b).map (Nat.cast : Nat → Int)) (j + 2)
        - (b : Int) * pnum ((euclid_quotients a b).map (Nat.cast : Nat → Int)) (j + 2)
        = (-1) ^ j * (eRem a b (j + 1) : Int) := by
  induction b using Nat.strong_induction_on with
  | _ b ih =>
    intro a j hj
    by_cases hb : b = 0
    · subst hb
      rw [euclid_quotients_zero] at hj
      exact absurd hj (by simp)
    · rw [euclid_quotients_cons _ hb] at hj ⊢
      rw [List.map_cons]
      rw [eRem_succ, if_neg hb]
      match j with
      | 0 =>
        obtain ⟨hp, hq⟩ := pnum_qden_cons ((a / b : Nat) : Int)
          ((euclid_quotients b (a % b)).map (Nat.cast : Nat → Int)) 1
        rw [hp, hq, pnum_one, qden_one, eRem_zero]
        rw [mul_one]
        push_cast
        have := cast_euclid_step a b
        push_cast at this
        linarith [this]
      | (j + 1) =>
        have hjlen : j < (euclid_quotients b (a % b)).length := by
          simp only [List.length_cons] at hj
          omega
        have ihid := ih (a % b) (Nat.mod_lt _ (Nat.pos_of_ne_zero hb)) b j hjlen
        obtain ⟨hp, hq⟩ := pnum_qden_cons ((a / b : Nat) : Int)
          ((euclid_quotients b (a % b)).map (Nat.cast : Nat → Int)) (j + 2)
        rw [show j + 1 + 2 = j + 2 + 1 by omega, hp, hq]
        have hstep := cast_euclid_step a b
        have hexp : (a : Int) * pnum ((euclid_quotients b (a % b)).map (Nat.cast : Nat → Int)) (j + 2)
            - (b : Int) * (((a / b : Nat) : Int) *
                pnum ((euclid_quotients b (a % b)).map (Nat.cast : Nat → Int)) (j + 2)
              + qden ((euclid_quotients b (a % b)).map (Nat.cast : Nat → Int)) (j + 2))
            = -((b : Int) * qden ((euclid_quotients b (a % b)).map (Nat.cast : Nat → Int)) (j + 2)
              - ((a % b : Nat) : Int) *
                pnum ((euclid_quotients b (a % b)).map (Nat.cast : Nat → Int)) (j + 2)) := by
          linear_combination pnum ((euclid_quotients b (a % b)).map (Nat.cast : Nat → Int)) (j + 2) * hstep
        rw [hexp, ihid]
        ring

/-! ### What acceptance of a candidate implies -/

theorem accepts_factorization {e n k d : Int} (h : accepts e n (k, d) = true) :
    k ≠ 0 ∧
      ∃ phi u v : Int,
        e * d - 1 = phi * k ∧ u * v = n ∧ u + v = n - phi + 1 ∧ v ≤ u := by
  have h' := h
  simp only [accepts] at h'
  by_cases hk : k = 0
  · rw [if_pos hk] at h'
    exact absurd h' (by simp)
  · refine ⟨hk, ?_⟩
    rw [if_neg hk] at h'
    by_cases hm : (e * d - 1).fmod k = 0
    · rw [if_neg (not_not_intro hm)] at h'
      set phi := (e * d - 1).fdiv k with hphi
      have hexact : e * d - 1 = phi * k := by
        have hfd := Int.fmod_add_fdiv (e * d - 1) k
        rw [hm, zero_add] at hfd
        rw [← hfd]; ring
      rcases hs : is_perfect_square (-(n - phi + 1) * -(n - phi + 1) - 4 * 1 * n)
          with _ | s
      · rw [hs] at h'
        exact absurd h' (by simp)
      · rw [hs] at h'
        have hcheck := of_decide_eq_true h'
        obtain ⟨hs0, hss⟩ := (ips_some_iff _ s).mp hs
        simp only [neg_neg] at hcheck
        set T := n - phi + 1 with hT
        set f1 := (T + s).fdiv 2 with hf1
        set f2 := (T - s).fdiv 2 with hf2
        have h1 := Int.fmod_add_fdiv (T + s) 2
        have h2 := Int.fmod_add_fdiv (T - s) 2
        have hc1a := Int.fmod_nonneg' (T + s) (by norm_num : (0 : Int) < 2)
        have hc1b := Int.fmod_lt_of_pos (T + s) (by norm_num : (0 : Int) < 2)
        have hc2a := Int.fmod_nonneg' (T - s) (by norm_num : (0 : Int) < 2)
        have hc2b := Int.fmod_lt_of_pos (T - s) (by norm_num : (0 : Int) < 2)
        have hprod : (T + s) * (T - s) = 4 * n := by linear_combination -hss
        rcases (by omega :
            (T + s).fmod 2 = 0 ∧ (T - s).fmod 2 = 0 ∨
              (T + s).fmod 2 = 1 ∧ (T - s).fmod 2 = 1) with ⟨hcz1, hcz2⟩ | ⟨hco1, hco2⟩
        · have he1 : T + s = 2 * f1 := by omega
          have he2 : T - s = 2 * f2 := by omega
          exact ⟨phi, f1, f2, hexact, hcheck, by omega, by omega⟩
        · exfalso
          have ho1 : T + s = 2 * f1 + 1 := by omega
          have ho2 : T - s = 2 * f2 + 1 := by omega
          have hpp : (2 * f1 + 1) * (2 * f2 + 1) = 4 * n := by rw [← ho1, ← ho2]; exact hprod
          have : 2 * f1 + 2 * f2 + 1 = 0 := by linear_combination hpp - 4 * hcheck
          omega
    · rw [if_pos hm] at h'
      exact absurd h' (by simp)

/-! ### Integer factorizations of a prime -/

theorem int_factor_prime {p : Nat} (hp : p.Prime) {u v : Int} (huv : u * v = (p : Int))
    (hvu : v ≤ u) :
    (u = (p : Int) ∧ v = 1) ∨ (u = -1 ∧ v = -(p : Int)) := by
  have hp2 : 2 ≤ p := hp.two_le
  have hdvd : u ∣ (p : Int) := ⟨v, huv.symm⟩
  have habs : u.natAbs ∣ p := by
    have h1 := Int.natAbs_dvd_natAbs.mpr hdvd
    simpa using h1
  rcases Nat.Prime.eq_one_or_self_of_dvd hp _ habs with h1 | h1
  · rcases Int.natAbs_eq_iff.mp h1 with hu | hu
    · exfalso
      rw [hu] at huv hvu
      have hv : v = (p : Int) := by push_cast at huv ⊢; linarith
      rw [hv] at hvu
      push_cast at hvu
      omega
    · right
      rw [hu] at huv hvu ⊢
      have hv : v = -(p : Int) := by push_cast at huv ⊢; linarith
      exact ⟨by norm_num, hv⟩
  · rcases Int.natAbs_eq_iff.mp h1 with hu | hu
    · left
      refine ⟨hu, ?_⟩
      rw [hu] at huv
      have hpz : (p : Int) ≠ 0 := by positivity
      exact mul_left_cancel₀ hpz (by rw [huv, mul_one])
    · exfalso
      rw [hu] at huv hvu
      have hv : v = -1 := by
        have hpz : (p : Int) ≠ 0 := by positivity
        have : (p : Int) * v = (p : Int) * -1 := by ring_nf; linarith [huv]
        exact mul_left_cancel₀ hpz this
      rw [hv] at hvu
      omega

/-! ### For a prime modulus the attack never accepts a candidate -/

theorem attack_prime_aux (e n : Nat) (hp : Nat.Prime n) (he : 0 < e) (hen : e < n) :
    wiener_attack (e : Int) (n : Int) = none := by
  rw [wiener_attack, wiener_loop_eq_find]
  have hnone : (convergents_from_cf (continued_fraction_expansion (e : Int) (n : Int))).find?
      (accepts (e : Int) (n : Int)) = none := by
    rw [List.find?_eq_none]
    intro kd hkd hacc
    rw [cfe_eq_euclid] at hkd
    set M := (euclid_quotients e n).map (Nat.cast : Nat → Int) with hM
    obtain ⟨i, hilen, hkdeq⟩ := mem_convergents M kd hkd
    subst hkdeq
    obtain ⟨hk0, phi, u, v, hexact, huv, hsum, hvu⟩ := accepts_factorization hacc
    have hn2 : 2 ≤ n := hp.two_le
    have hn2i : (2 : Int) ≤ (n : Int) := by exact_mod_cast hn2
    have hei : (1 : Int) ≤ (e : Int) := by exact_mod_cast he
    have heni : (e : Int) < (n : Int) := by exact_mod_cast hen
    have hilen' : i < (euclid_quotients e n).length := by
      rw [hM] at hilen
      simpa using hilen
    have hid := euclid_identity n e i hilen'
    rw [← hM] at hid
    have hmem : ∀ x ∈ M, 0 ≤ x := by
      intro x hx
      rw [hM] at hx
      obtain ⟨q, _, rfl⟩ := List.mem_map.mp hx
      positivity
    obtain ⟨hpn, hqn⟩ := pnum_qden_nonneg M hmem (i + 2)
    have hk1 : 1 ≤ pnum M (i + 2) := by
      rcases lt_or_eq_of_le hpn with h1 | h1
      · omega
      · exact absurd h1.symm hk0
    have hnk : (n : Int) ≤ (n : Int) * pnum M (i + 2) := by
      calc (n : Int) = (n : Int) * 1 := by ring
        _ ≤ (n : Int) * pnum M (i + 2) :=
          mul_le_mul_of_nonneg_left hk1 (by positivity)
    have hrle : eRem e n (i + 1) ≤ e := by
      have h1 := eRem_le_of_le e n (show 1 ≤ i + 1 by omega)
      rwa [eRem_one e n (by omega), Nat.mod_eq_of_lt hen] at h1
    have hr0 : (0 : Int) ≤ ((eRem e n (i + 1) : Nat) : Int) := by positivity
    have hrlei : ((eRem e n (i + 1) : Nat) : Int) ≤ (e : Int) := by exact_mod_cast hrle
    rcases int_factor_prime hp huv hvu with ⟨hu, hv⟩ | ⟨hu, hv⟩
    · have hphi0 : phi = 0 := by rw [hu, hv] at hsum; linarith
      have hed : (e : Int) * qden M (i + 2) = 1 := by
        rw [hphi0] at hexact
        linarith [hexact]
      rcases Nat.even_or_odd i with hpar | hpar
      · have hpow : ((-1 : Int)) ^ i = 1 := hpar.neg_one_pow
        rw [hpow, one_mul] at hid
        linarith [hid, hed, hnk, hr0, hn2i]
      · have hpow : ((-1 : Int)) ^ i = -1 := hpar.neg_one_pow
        rw [hpow] at hid
        have hi1 : 1 ≤ i := by
          rcases hpar with ⟨t, ht⟩
          omega
        have hr2 : eRem e n (i + 1) ≤ eRem e n 2 := eRem_le_of_le e n (by omega)
        have hlt2 := eRem_succ_lt_or_zero e n 1
        rw [eRem_one e n (by omega), Nat.mod_eq_of_lt hen] at hlt2
        have hlt2' : eRem e n 2 < e ∨ eRem e n 2 = 0 := by simpa using hlt2
        have hre : eRem e n (i + 1) < e ∨ eRem e n (i + 1) = 0 := by omega
        rcases hre with hre | hre
        · have hrei : ((eRem e n (i + 1) : Nat) : Int) < (e : Int) := by exact_mod_cast hre
          linarith [hid, hed, hnk, heni]
        · have hrei : ((eRem e n (i + 1) : Nat) : Int) = 0 := by exact_mod_cast hre
          linarith [hid, hed, hnk, hn2i]
    · have hphi : phi = 2 * (n : Int) + 2 := by rw [hu, hv] at hsum; linarith
      have key : (n : Int) * pnum M (i + 2) + 2 * pnum M (i + 2) + 1
          = (-1) ^ i * ((eRem e n (i + 1) : Nat) : Int) := by
        rw [hphi] at hexact
        linear_combination hid - hexact
      have hpk : (2 : Int) ≤ 2 * pnum M (i + 2) := by linarith [hk1]
      rcases Nat.even_or_odd i with hpar | hpar
      · have hpow : ((-1 : Int)) ^ i = 1 := hpar.neg_one_pow
        rw [hpow, one_mul] at key
        linarith [key, hnk, hpk, hrlei, heni]
      · have hpow : ((-1 : Int)) ^ i = -1 := hpar.neg_one_pow
        rw [hpow] at key
        linarith [key, hnk, hpk, hr0]
  rw [hnone]
  rfl

/-! ### Concrete evaluations of the expander -/

theorem cf_17993_90581 :
    continued_fraction_expansion 17993 90581 = [0, 5, 29, 4, 1, 3, 2, 4, 3] := by
  rw [cfe_eval_step 17993 90581 0 17993 (by norm_num) (by decide) (by decide),
    cfe_eval_step 90581 17993 5 616 (by norm_num) (by decide) (by decide),
    cfe_eval_step 17993 616 29 129 (by norm_num) (by decide) (by decide),
    cfe_eval_step 616 129 4 100 (by norm_num) (by decide) (by decide),
    cfe_eval_step 129 100 1 29 (by norm_num) (by decide) (by decide),
    cfe_eval_step 100 29 3 13 (by norm_num) (by decide) (by decide),
    cfe_eval_step 29 13 2 3 (by norm_num) (by decide) (by decide),
    cfe_eval_step 13 3 4 1 (by norm_num) (by decide) (by decide),
    cfe_eval_step 3 1 3 0 (by norm_num) (by decide) (by decide),
    cfe_zero]

theorem cf_3_7 : continued_fraction_expansion 3 7 = [0, 2, 3] := by
  rw [cfe_eval_step 3 7 0 3 (by norm_num) (by decide) (by decide),
    cfe_eval_step 7 3 2 1 (by norm_num) (by decide) (by decide),
    cfe_eval_step 3 1 3 0 (by norm_num) (by decide) (by decide),
    cfe_zero]

theorem cf_1_2 : continued_fraction_expansion 1 2 = [0, 2] := by
  rw [cfe_eval_step 1 2 0 1 (by norm_num) (by decide) (by decide),
    cfe_eval_step 2 1 2 0 (by norm_num) (by decide) (by decide),
    cfe_zero]

/-! ## Claim theorems -/

/-- C1: `wiener_attack e n` returns the denominator of the first convergent of
    `e/n`, in scan order, accepted by the verifier (`k` nonzero, exact
    divisibility of `e·d − 1` by `k`, non-negative perfect-square discriminant
    with root `s`, and the two quadratic roots multiplying back to `n`, as
    collected in `accepts`); `List.find?` returns the first match of a
    left-to-right scan, so no later candidate affects the result. -/
theorem wiener_attack_first_accepted (e n : Int) :
    wiener_attack e n =
      ((convergents_from_cf (continued_fraction_expansion e n)).find?
        (accepts e n)).map Prod.snd := by
  rw [wiener_attack]
  exact wiener_loop_eq_find e n _

/-- C2: on non-negative inputs the expander produces exactly the Euclidean
    quotient sequence, of length the number of Euclidean steps. -/
theorem continued_fraction_expansion_eq_euclid (num den : Nat) :
    continued_fraction_expansion (num : Int) (den : Int)
      = (euclid_quotients num den).map (Nat.cast : Nat → Int) ∧
    (continued_fraction_expansion (num : Int) (den : Int)).length
      = (euclid_quotients num den).length := by
  refine ⟨cfe_eq_euclid num den, ?_⟩
  rw [cfe_eq_euclid]
  simp

/-- C3: on a non-empty term list, `convergents_from_cf` returns one pair per
    term, in order, satisfying the classical convergent recurrence:
    `(h₀,k₀) = (a₀,1)`, `(h₁,k₁) = (a₀a₁+1, a₁)`, and for `i ≥ 2`
    `hᵢ = aᵢh₍ᵢ₋₁₎ + h₍ᵢ₋₂₎`, `kᵢ = aᵢk₍ᵢ₋₁₎ + k₍ᵢ₋₂₎`. -/
theorem convergents_from_cf_recurrence (cf : List Int) (hne : cf ≠ []) :
    (convergents_from_cf cf).length = cf.length ∧
    (convergents_from_cf cf).getD 0 (0, 0) = (cf.getD 0 0, 1) ∧
    (1 < cf.length →
      (convergents_from_cf cf).getD 1 (0, 0)
        = (cf.getD 0 0 * cf.getD 1 0 + 1, cf.getD 1 0)) ∧
    (∀ i, 2 ≤ i → i < cf.length →
      (convergents_from_cf cf).getD i (0, 0)
        = (cf.getD i 0 * ((convergents_from_cf cf).getD (i - 1) (0, 0)).1
            + ((convergents_from_cf cf).getD (i - 2) (0, 0)).1,
          cf.getD i 0 * ((convergents_from_cf cf).getD (i - 1) (0, 0)).2
            + ((convergents_from_cf cf).getD (i - 2) (0, 0)).2)) := by
  have hlen : 0 < cf.length := List.length_pos.mpr hne
  refine ⟨convergents_length cf, ?_, ?_, ?_⟩
  · rw [convergents_getD cf 0 hlen, pnum_add_two, qden_add_two, pnum_one, pnum_zero,
      qden_one, qden_zero]
    simp
  · intro h1
    rw [convergents_getD cf 1 h1, pnum_add_two, qden_add_two, pnum_add_two, pnum_one,
      pnum_zero, qden_add_two, qden_one, qden_zero]
    simp [mul_comm]
  · intro i h2 hilen
    rw [convergents_getD cf i hilen,
      convergents_getD cf (i - 1) (by omega), convergents_getD cf (i - 2) (by omega)]
    rw [show i + 2 = i + 2 by rfl]
    have e1 : i - 1 + 2 = i + 1 := by omega
    have e2 : i - 2 + 2 = i := by omega
    rw [e1, e2, pnum_add_two cf i, qden_add_two cf i]

/-- C4: on the textbook example `e = 17993`, `n = 90581` the attack succeeds
    and returns exactly `d = 5`. -/
theorem wiener_attack_textbook : wiener_attack 17993 90581 = some 5 := by
  have e19600 : is_perfect_square 19600 = some 140 :=
    (ips_some_iff 19600 140).mpr ⟨by norm_num, by norm_num⟩
  have hacc1 : accepts 17993 90581 (1, 5) = true := by
    refine accepts_true_of 17993 90581 1 5 89964 140 (by decide) (by decide) (by decide)
      ?_ (by decide)
    rw [show (-(90581 - 89964 + 1) * -(90581 - 89964 + 1) - 4 * 1 * 90581 : Int)
      = 19600 by decide]
    exact e19600
  have hcv : convergents_from_cf [0, 5, 29, 4, 1, 3, 2, 4, 3]
      = [(0, 1), (1, 5), (29, 146), (117, 589), (146, 735), (555, 2794), (1256, 6323),
         (5579, 28086), (17993, 90581)] := by decide
  rw [wiener_attack, cf_17993_90581, hcv, wiener_loop_cons, accepts_k_zero]
  rw [if_neg (by decide : ¬(false = true))]
  rw [wiener_loop_cons, hacc1, if_pos rfl]

/-- C5: for a prime modulus `n` and any `0 < e < n` the loop terminates with
    the not-found result `none`; zero `k` candidates are never accepted (so no
    division or modulus by zero is reachable), and the square-root test
    rejects every negative discriminant. -/
theorem wiener_attack_prime_modulus (e n : Nat) (hp : Nat.Prime n) (he : 0 < e)
    (hen : e < n) :
    wiener_attack (e : Int) (n : Int) = none ∧
    (∀ kd : Int × Int, kd.1 = 0 → accepts (e : Int) (n : Int) kd = false) ∧
    (∀ m : Int, m < 0 → is_perfect_square m = none) :=
  ⟨attack_prime_aux e n hp he hen,
   fun kd hkd => by simp [accepts, hkd],
   fun _ hm => ips_none_neg hm⟩

theorem wiener_attack_prime_modulus_witness :
    wiener_attack ((3 : Nat) : Int) ((7 : Nat) : Int) = none ∧
      is_perfect_square (-1) = none :=
  ⟨(wiener_attack_prime_modulus 3 7 (by norm_num) (by norm_num) (by norm_num)).1,
   (wiener_attack_prime_modulus 3 7 (by norm_num) (by norm_num) (by norm_num)).2.2
     (-1) (by norm_num)⟩

/-- C6: whenever no convergent candidate passes the verifier, the attack
    returns the explicit not-found value `none`. -/
theorem wiener_attack_none_of_no_accept (e n : Int)
    (h : ∀ kd ∈ convergents_from_cf (continued_fraction_expansion e n),
        accepts e n kd = false) :
    wiener_attack e n = none := by
  rw [wiener_attack, wiener_loop_eq_find]
  have hnone : (convergents_from_cf (continued_fraction_expansion e n)).find?
      (accepts e n) = none :=
    List.find?_eq_none.mpr (fun x hx => by simp [h x hx])
  rw [hnone]
  rfl

theorem wiener_attack_none_of_no_accept_witness :
    (∀ kd ∈ convergents_from_cf (continued_fraction_expansion 1 2),
        accepts 1 2 kd = false) ∧
      wiener_attack 1 2 = none := by
  have h : ∀ kd ∈ convergents_from_cf (continued_fraction_expansion 1 2),
      accepts 1 2 kd = false := by
    rw [cf_1_2]
    decide
  exact ⟨h, wiener_attack_none_of_no_accept 1 2 h⟩

theorem convergents_from_cf_recurrence_witness :
    (([2, 3, 4] : List Int) ≠ []) ∧
    (convergents_from_cf [2, 3, 4]).getD 1 (0, 0)
      = (([2, 3, 4] : List Int).getD 0 0 * ([2, 3, 4] : List Int).getD 1 0 + 1,
         ([2, 3, 4] : List Int).getD 1 0) ∧
    (convergents_from_cf [2, 3, 4]).getD 2 (0, 0)
      = (([2, 3, 4] : List Int).getD 2 0
            * ((convergents_from_cf [2, 3, 4]).getD (2 - 1) (0, 0)).1
          + ((convergents_from_cf [2, 3, 4]).getD (2 - 2) (0, 0)).1,
        ([2, 3, 4] : List Int).getD 2 0
            * ((convergents_from_cf [2, 3, 4]).getD (2 - 1) (0, 0)).2
          + ((convergents_from_cf [2, 3, 4]).getD (2 - 2) (0, 0)).2) :=
  ⟨by decide,
   (convergents_from_cf_recurrence [2, 3, 4] (by decide)).2.2.1 (by decide),
   (convergents_from_cf_recurrence [2, 3, 4] (by decide)).2.2.2 2 (by decide) (by decide)⟩

/-- C7 counterexample: with `e = 0` (and a genuine modulus) the attack performs
    no input validation: the continued-fraction expansion is carried out (it
    produces the term list `[0]`) and the function returns the ordinary
    not-found value `None`, not a distinguished validation failure. -/
theorem no_input_validation_counterexample :
    continued_fraction_expansion 0 90581 = [0] ∧ wiener_attack 0 90581 = none := by
  have hcf : continued_fraction_expansion 0 90581 = [0] := by
    rw [cfe_eval_step 0 90581 0 0 (by norm_num) (by decide) (by decide), cfe_zero]
  refine ⟨hcf, ?_⟩
  rw [wiener_attack, hcf]
  decide

/-- C7 amended: `wiener_attack` checks no precondition on `e` or `n`: for
    `e = 0` or `n = 0` it proceeds through the continued-fraction pipeline and
    returns the not-found value `None`. -/
theorem wiener_attack_no_validation (e n : Int) :
    wiener_attack 0 n = none ∧ wiener_attack e 0 = none := by
  constructor
  · by_cases hn : n = 0
    · subst hn
      rw [wiener_attack, cfe_zero]
      rfl
    · rw [wiener_attack, cfe_eval_step 0 n 0 0 hn (Int.zero_fdiv n) (by ring), cfe_zero]
      have hcv : convergents_from_cf [(0 : Int)] = [(0, 1)] := by decide
      rw [hcv, wiener_loop_cons]
      rw [accepts_k_zero]
      simp [wiener_loop]
  · rw [wiener_attack, cfe_zero]
    rfl

/-- C8 counterexample: on the empty term list `convergents_from_cf` does not
    fail; it returns the empty list of convergents. -/
theorem convergents_empty_counterexample : convergents_from_cf [] = [] := rfl

/-- C8 amended: on the empty term sequence `convergents_from_cf` returns the
    empty sequence (no error is raised; the loop body is never entered). -/
theorem convergents_empty_behavior :
    convergents_from_cf [] = [] ∧ (convergents_from_cf []).length = 0 :=
  ⟨rfl, rfl⟩

/-- C9: with a zero denominator the expander immediately returns the empty
    term sequence, and through the attack a zero modulus therefore yields the
    not-found value `None` rather than a crash. -/
theorem cfe_zero_denominator_behavior (numerator e : Int) :
    continued_fraction_expansion numerator 0 = [] ∧ wiener_attack e 0 = none := by
  refine ⟨cfe_zero numerator, ?_⟩
  rw [wiener_attack, cfe_zero]
  rfl

/-- C10: the perfect-square test is exact over the integers: it returns a root
    `r` exactly for the non-negative perfect squares (with `r · r = m` and
    `r ≥ 0`), and `None` exactly when no integer squares to `m` (in particular
    for every negative `m`). -/
theorem is_perfect_square_exact (m : Int) :
    (∀ r : Int, is_perfect_square m = some r ↔ 0 ≤ r ∧ r * r = m) ∧
    (is_perfect_square m = none ↔ ∀ r : Int, r * r ≠ m) :=
  ⟨fun r => ips_some_iff m r, ips_none_iff m⟩
